import Mathlib

/-!
Shallow embedding of the knierim2000-to-nwb conversion core:
the text spike-file reader (`cel_file.py`), the binary rate-map reader
(`rma_file.py`), and the session assembler merges (`convert_session.py`).

Modelling conventions:
* file contents are lists of lines (strings) or lists of bytes (naturals);
  line processing works on the underlying character lists;
* floating point data values are modelled as rationals (`Rat`); the NaN
  sentinel of the source is modelled as `Option.none` / the `Cell.na`
  constructor; rationals are built only through `Rat.divInt` so that every
  definition evaluates by kernel reduction;
* case-insensitive matching is modelled as ASCII case folding;
* IEEE-754 32-bit floats inside the binary map files are never computed
  with, only moved, so they are represented by their 32-bit big-endian
  bit patterns (naturals below 2^32);
* Python exceptions are modelled with `Except`.
-/

namespace Knierim

/-- Decidable equality of `Except` values, so that concrete runs of the
fallible readers can be checked by evaluation. -/
instance exceptDecEq {ε α : Type} [DecidableEq ε] [DecidableEq α] :
    DecidableEq (Except ε α)
  | .error e, .error f =>
      if h : e = f then .isTrue (by rw [h]) else .isFalse (fun hc => by cases hc; exact h rfl)
  | .error _, .ok _ => .isFalse (fun hc => by cases hc)
  | .ok _, .error _ => .isFalse (fun hc => by cases hc)
  | .ok a, .ok b =>
      if h : a = b then .isTrue (by rw [h]) else .isFalse (fun hc => by cases hc; exact h rfl)

/-! Character-level string utilities -/

/-- Strip whitespace from both ends of a character list (Python `strip`). -/
def charTrim (cs : List Char) : List Char :=
  ((cs.dropWhile Char.isWhitespace).reverse.dropWhile Char.isWhitespace).reverse

/-- Split on a separator character; n separators give n+1 pieces, as
Python `split(sep)`. -/
def splitOnChar (sep : Char) : List Char → List (List Char)
  | [] => [[]]
  | c :: rest =>
    if c = sep then [] :: splitOnChar sep rest
    else
      match splitOnChar sep rest with
      | [] => [[c]]
      | p :: ps => (c :: p) :: ps

/-- Split on runs of whitespace, dropping empty pieces (Python `split()`). -/
def wsTokens (cs : List Char) : List (List Char) :=
  (splitWsAux cs).filter (fun t => ¬ t.isEmpty)
where
  /-- Split on each whitespace character, keeping empty pieces. -/
  splitWsAux : List Char → List (List Char)
    | [] => [[]]
    | c :: rest =>
      if c.isWhitespace then [] :: splitWsAux rest
      else
        match splitWsAux rest with
        | [] => [[c]]
        | p :: ps => (c :: p) :: ps

/-- Case-insensitive match of one character against a pattern letter,
by ASCII case folding. -/
def matchCaseFold (p c : Char) : Bool :=
  c == p || (p.isUpper && c.toNat == p.toNat + 32)
    || (p.isLower && c.toNat + 32 == p.toNat)

/-- Consume a pattern case-insensitively from the front of a character
list, returning the remainder on success. -/
def dropCaseFold : List Char → List Char → Option (List Char)
  | [], cs => some cs
  | _ :: _, [] => none
  | p :: ps, c :: cs => if matchCaseFold p c then dropCaseFold ps cs else none

/-- Whether a character list starts with a pattern, case-insensitively. -/
def startsWithCI (ps cs : List Char) : Bool :=
  (dropCaseFold ps cs).isSome

/-- Strict codepoint-lexicographic comparison of character lists, the
order in which Python compares strings. -/
def charsLT : List Char → List Char → Bool
  | [], [] => false
  | [], _ :: _ => true
  | _ :: _, [] => false
  | c :: cs, d :: ds => c.toNat < d.toNat || (c == d && charsLT cs ds)

/-- Strict string comparison by codepoints. -/
def strLT (s t : String) : Bool := charsLT s.data t.data

/-! Numeric token parsing -/

/-- Digit run to natural number, most significant first. -/
def digitsToNat (cs : List Char) : Nat :=
  cs.foldl (fun a c => 10 * a + (c.toNat - 48)) 0

/-- Sign and digits of an integer literal: optional sign then a nonempty
digit run. -/
def intOfDigits (cs : List Char) : Option Int :=
  match cs with
  | '+' :: rest =>
      if ¬ rest.isEmpty ∧ rest.all (·.isDigit) then some (digitsToNat rest : Int) else none
  | '-' :: rest =>
      if ¬ rest.isEmpty ∧ rest.all (·.isDigit) then some (-(digitsToNat rest : Int)) else none
  | _ =>
      if ¬ cs.isEmpty ∧ cs.all (·.isDigit) then some (digitsToNat cs : Int) else none

/-- Model of Python `int(p)` on one token: surrounding whitespace is
allowed, then an optionally signed digit run. -/
def pyInt (cs : List Char) : Option Int :=
  intOfDigits (charTrim cs)

/-- Model of `CelFile._parse_time_str`: parse `H:MM:SS` or `MM:SS` into
seconds; any malformed input yields the NaN sentinel, modelled as `none`. -/
def parseTimeStr (s : String) : Option Int :=
  if s = "" then none
  else
    match (splitOnChar ':' (charTrim s.data)).mapM pyInt with
    | none => none
    | some ps =>
      match ps with
      | [h, m, sec] => some (h * 3600 + m * 60 + sec)
      | [m, sec] => some (m * 60 + sec)
      | _ => none

/-- Unsigned decimal mantissa: digits, optionally a point and more digits,
at least one digit overall; returns the digit value and the length of the
fractional part. -/
def decMantissa (cs : List Char) : Option (Nat × Nat) :=
  let intPart := cs.takeWhile (·.isDigit)
  let rest := cs.dropWhile (·.isDigit)
  match rest with
  | [] => if intPart.isEmpty then none else some (digitsToNat intPart, 0)
  | '.' :: frac =>
      if frac.all (·.isDigit) ∧ ¬(intPart.isEmpty ∧ frac.isEmpty) then
        some (digitsToNat intPart * 10 ^ frac.length + digitsToNat frac, frac.length)
      else none
  | _ => none

/-- Model of the numeric-token coercion performed by the tabular reader:
optional sign, decimal mantissa, optional integer exponent. -/
def pyFloat (cs : List Char) : Option Rat :=
  let signNeg : Bool := match cs with | '-' :: _ => true | _ => false
  let cs1 := match cs with | '-' :: r => r | '+' :: r => r | _ => cs
  let mant := cs1.takeWhile (fun c => c ≠ 'e' ∧ c ≠ 'E')
  let rest := cs1.dropWhile (fun c => c ≠ 'e' ∧ c ≠ 'E')
  let expOpt : Option Int := match rest with
    | [] => some 0
    | _ :: ecs => intOfDigits ecs
  match decMantissa mant, expOpt with
  | some (m, fracLen), some e =>
      let m' : Int := if signNeg then -(m : Int) else (m : Int)
      let k : Int := e - fracLen
      some (if 0 ≤ k then Rat.divInt (m' * (10 : Int) ^ k.toNat) 1
            else Rat.divInt m' ((10 : Int) ^ (-k).toNat))
  | _, _ => none

/-! The row-table cell model -/

/-- One cell of the row table: a coerced number, a raw text token that did
not coerce, or the missing-value marker. -/
inductive Cell where
  | num (q : Rat)
  | txt (s : String)
  | na
deriving DecidableEq, Repr

/-- Whether a cell is the missing-value marker. -/
def Cell.isNA : Cell → Bool
  | .na => true
  | _ => false

/-- Default tokens the tabular reader treats as missing values. -/
def naTokens : List String :=
  ["", "#N/A", "#N/A N/A", "#NA", "-1.#IND", "-1.#QNAN", "-NaN", "-nan",
   "1.#IND", "1.#QNAN", "<NA>", "N/A", "NA", "NULL", "NaN", "None",
   "n/a", "nan", "null"]

/-- Tokenize one data token into a cell. -/
def parseToken (t : List Char) : Cell :=
  if String.mk t ∈ naTokens then .na
  else
    match pyFloat t with
    | some q => .num q
    | none => .txt (String.mk t)

/-- Model of `pd.to_numeric(·, errors="coerce")` on one cell: numbers pass
through, everything else becomes NaN (`none`). -/
def coerceCell : Cell → Option Rat
  | .num q => some q
  | _ => none

/-! Text file reader -/

/-- Does a stripped line match the fields declaration: optional percent
sign, whitespace, the word fields case-insensitively, whitespace, a colon. -/
def fieldsMatch (cs : List Char) : Bool :=
  let cs1 := match cs with | '%' :: r => r | _ => cs
  let cs2 := cs1.dropWhile Char.isWhitespace
  match dropCaseFold "fields".data cs2 with
  | some cs3 =>
      match cs3.dropWhile Char.isWhitespace with
      | ':' :: _ => true
      | _ => false
  | none => false

/-- Split a character list at its first colon. -/
def splitFirstColon (cs : List Char) : List Char × List Char :=
  match splitOnChar ':' cs with
  | [] => (cs, [])
  | k :: rest => (k, joinColon rest)
where
  /-- Rejoin pieces with colons. -/
  joinColon : List (List Char) → List Char
    | [] => []
    | [p] => p
    | p :: ps => p ++ ':' :: joinColon ps

/-- Model of Python dict insertion: replace the value in place when the
key exists, else append the pair. -/
def insertKV : List (String × String) → String → String → List (String × String)
  | [], k, v => [(k, v)]
  | (k', v') :: rest, k, v =>
      if k' = k then (k', v) :: rest else (k', v') :: insertKV rest k v

/-- Key/value extracted from one header line: strip leading percent signs
and whitespace, split at the first colon, trim both sides. -/
def headerKV (cs : List Char) : String × String :=
  let kv := charTrim (cs.dropWhile (fun c => c = '%'))
  let p := splitFirstColon kv
  (String.mk (charTrim p.1), String.mk (charTrim p.2))

/-- The fields list extracted from a fields declaration line: everything
after the first colon, split on whitespace. -/
def fieldsOf (cs : List Char) : List String :=
  (wsTokens (charTrim (splitFirstColon cs).2)).map String.mk

/-- The end-of-header sentinel line. -/
def endHeaderTok : List Char := "%%ENDHEADER".data

/-- Classified fatal errors of the text reader. -/
inductive CelErr where
  | missingFields
  | missingEndHeader
deriving DecidableEq, Repr

/-- Parsed contents of one text spike file. -/
structure CelRec where
  stem : String
  fields : List String
  header : List (String × String)
  rows : List (List Cell)
deriving DecidableEq, Repr

/-- Whether a character list starts with a percent sign. -/
def startsPct : List Char → Bool
  | '%' :: _ => true
  | _ => false

/-- One header-scan step: the fields list seen so far, the header map so
far, the current line index, the remaining lines; returns the final fields
list, header map, and the sentinel line index when found. -/
def scanAux (fs : Option (List String)) (hdr : List (String × String)) (idx : Nat) :
    List String → Option (List String) × List (String × String) × Option Nat
  | [] => (fs, hdr, none)
  | l :: rest =>
    let s := charTrim l.data
    let hdr' :=
      if startsPct s && s.contains ':' && ! fieldsMatch s then
        insertKV hdr (headerKV s).1 (headerKV s).2
      else hdr
    let fs' := if fieldsMatch s then some (fieldsOf s) else fs
    if s = endHeaderTok then (fs', hdr', some idx)
    else scanAux fs' hdr' (idx + 1) rest

/-- Build one row: map tokens positionally onto the field list, padding a
short row with missing values. -/
def mkRow (fields : List String) (tokens : List (List Char)) : List Cell :=
  (List.range fields.length).map fun i =>
    match tokens[i]? with
    | some t => parseToken t
    | none => Cell.na

/-- Build the row table from the data lines: tokenize, skip blank lines,
map rows onto the field list, then drop rows that are entirely missing. -/
def mkRows (fields : List String) (dataLines : List String) : List (List Cell) :=
  (((dataLines.map (fun l => wsTokens l.data)).filter (fun ts => ¬ ts.isEmpty)).map
    (mkRow fields)).filter (fun row => ¬ row.all Cell.isNA)

/-- Model of `read_cel_file`: scan at most the first 800 lines for header
lines, the fields declaration and the end-of-header sentinel, then build
the row table from the lines after the sentinel. -/
def readCel (lines : List String) (stem : String) : Except CelErr CelRec :=
  match scanAux none [] 0 (lines.take 800) with
  | (none, _, _) => .error .missingFields
  | (some _, _, none) => .error .missingEndHeader
  | (some fs, hdr, some i) =>
      .ok { stem := stem, fields := fs, header := hdr, rows := mkRows fs (lines.drop (i + 1)) }

/-- Prefix of a line list truncated just after its first end-of-header
sentinel line. -/
def winUpTo : List String → List String
  | [] => []
  | l :: rest =>
      if charTrim l.data = endHeaderTok then [l] else l :: winUpTo rest

/-- The scan window of the claim: the first 800 lines, truncated at the
first end-of-header sentinel line (which stays part of the window). -/
def scanWindow (lines : List String) : List String :=
  winUpTo (lines.take 800)

/-- A line whose stripped form matches the fields declaration. -/
def isFieldsLine (l : String) : Bool := fieldsMatch (charTrim l.data)

/-! Derived record attributes -/

/-- Header map lookup with empty-string default (`dict.get(k, "")`). -/
def headerGet (r : CelRec) (k : String) : String :=
  match r.header.find? (fun p => p.1 = k) with
  | some p => p.2
  | none => ""

/-- First run of digits inside a string, as a number. -/
def firstDigitRun (s : String) : Option Nat :=
  let cs := s.data.dropWhile (fun c => ¬ c.isDigit)
  if cs.isEmpty then none else some (digitsToNat (cs.takeWhile (·.isDigit)))

/-- Model of `CelFile._parse_cluster`: digits of the header Cluster value. -/
def parseCluster (r : CelRec) : Option Nat :=
  let raw := headerGet r "Cluster"
  if raw = "" then none else firstDigitRun raw

/-- Cluster id with the sentinel substituted for a missing cluster. -/
def clusterId (r : CelRec) : Int :=
  match parseCluster r with
  | some n => (n : Int)
  | none => -1

/-- Model of `CelFile._infer_session_type` on the file stem. -/
def sessionTypeOf (stem : String) : String :=
  if startsWithCI "BL".data stem.data then "BL"
  else if startsWithCI "ES".data stem.data then "ES"
  else if startsWithCI "MC".data stem.data then "MC"
  else "unknown"

/-- Derived session type of a record. -/
def sessionType (r : CelRec) : String := sessionTypeOf r.stem

/-- Derived start time in seconds, `none` for the NaN sentinel. -/
def startTime (r : CelRec) : Option Int := parseTimeStr (headerGet r "Start time")

/-- Derived end time in seconds, `none` for the NaN sentinel. -/
def endTime (r : CelRec) : Option Int := parseTimeStr (headerGet r "End time")

/-- Derived has-position flag. -/
def hasPosition (r : CelRec) : Bool :=
  decide ("pos_x" ∈ r.fields) && decide ("pos_y" ∈ r.fields)

/-- Index of a field name in the field list. -/
def colIdx (r : CelRec) (f : String) : Nat := r.fields.findIdx (fun g => g = f)

/-- Cell of one row under a field name. -/
def cellAt (r : CelRec) (row : List Cell) (f : String) : Cell :=
  row.getD (colIdx r f) Cell.na

/-- One named column of the row table. -/
def column (r : CelRec) (f : String) : List Cell :=
  r.rows.map (fun row => cellAt r row f)

/-- Column access as the dataframe performs it: a missing column name is a
raised KeyError. -/
def columnE (r : CelRec) (f : String) : Except String (List Cell) :=
  if f ∈ r.fields then .ok (column r f) else .error "KeyError"

/-- Valid (non-missing) spike times of one record: the time column after
numeric coercion, NaN entries masked out. -/
def validTimes (r : CelRec) : List Rat :=
  (column r "time").filterMap coerceCell

/-! Session assembler -/

/-- Collected per-file parse attempts: failures are excluded, successes
kept in arrival order (the try/except loop of `convert_session`). -/
def collectCels (results : List (String × Except CelErr CelRec)) : List (String × CelRec) :=
  results.filterMap fun p =>
    match p.2 with
    | .ok r => some (p.1, r)
    | .error _ => none

/-- Epoch triple of a record, defined only when both times are defined. -/
def epochKey (r : CelRec) : Option (Int × Int × String) :=
  match startTime r, endTime r with
  | some s, some e => some (s, e, sessionType r)
  | _, _ => none

/-- Insert into the uniqueness set, modelled as a duplicate-free list in
insertion order. -/
def epochInsert (es : List (Int × Int × String)) (e : Int × Int × String) :
    List (Int × Int × String) :=
  if e ∈ es then es else es ++ [e]

/-- Lexicographic order on epoch triples, as Python compares the tuples. -/
def epochLE (a b : Int × Int × String) : Bool :=
  decide (a.1 < b.1) ||
    (decide (a.1 = b.1) &&
      (decide (a.2.1 < b.2.1) ||
        (decide (a.2.1 = b.2.1) && (strLT a.2.2 b.2.2 || a.2.2 == b.2.2))))

/-- One step of the epoch loop: records with an undefined time are
skipped, the rest contribute their triple to the uniqueness set. -/
def epochStep (es : List (Int × Int × String)) (p : String × CelRec) :
    List (Int × Int × String) :=
  match epochKey p.2 with
  | some e => epochInsert es e
  | none => es

/-- Model of the epoch merge: insert the triple of every record with both
times defined into the uniqueness set, then sort ascending. -/
def epochList (cels : List (String × CelRec)) : List (Int × Int × String) :=
  (cels.foldl epochStep []).mergeSort epochLE

/-- Order on unit keys (tetrode name, cluster id), as Python compares the
tuples. -/
def keyLE (a b : String × Int) : Bool :=
  strLT a.1 b.1 || (a.1 == b.1 && decide (a.2 ≤ b.2))

/-- Boolean rational comparison used for spike-time sorting. -/
def ratLE (a b : Rat) : Bool := decide (a ≤ b)

/-- Association-list value lookup with default. -/
def dictGet {α : Type} (gs : List ((String × Int) × α)) (k : String × Int) (d : α) : α :=
  match gs.find? (fun g => decide (g.1 = k)) with
  | some g => g.2
  | none => d

/-- Append one spike-time array to a group dictionary, modelled as an
association list in key insertion order. -/
def addRec (gs : List ((String × Int) × List (List Rat))) (k : String × Int)
    (ts : List Rat) : List ((String × Int) × List (List Rat)) :=
  if gs.any (fun g => decide (g.1 = k)) then
    gs.map (fun g => if g.1 = k then (g.1, g.2 ++ [ts]) else g)
  else gs ++ [(k, [ts])]

/-- The grouping loop of the unit merge: extract each record's spike-time
column (a missing time column raises), mask out NaN entries, and append
nonempty arrays to the record's (tetrode, cluster) group. -/
def collectGroups (acc : List ((String × Int) × List (List Rat))) :
    List (String × CelRec) → Except String (List ((String × Int) × List (List Rat)))
  | [] => .ok acc
  | (tt, r) :: rest => do
    let col ← columnE r "time"
    let ts := col.filterMap coerceCell
    collectGroups (if ts.isEmpty then acc else addRec acc (tt, clusterId r) ts) rest

/-- Model of the unit merge: group, then emit groups in ascending key
order, each group's arrays concatenated in arrival order and sorted. -/
def buildUnits (cels : List (String × CelRec)) :
    Except String (List ((String × Int) × List Rat)) := do
  let gs ← collectGroups [] cels
  .ok (((gs.map (fun g => g.1)).mergeSort keyLE).map
    (fun k => (k, ((dictGet gs k []).flatten).mergeSort ratLE)))

/-- Reference form of a group's merged time sequence before sorting: the
concatenation, in record arrival order, of the valid times of every record
with the given key. -/
def groupTimes (cels : List (String × CelRec)) (k : String × Int) : List Rat :=
  cels.flatMap fun p => if (p.1, clusterId p.2) = k then validTimes p.2 else []

/-- Position triple of one row, defined when time, x and y all coerce. -/
def rowTriple (r : CelRec) (row : List Cell) : Option (Rat × Rat × Rat) :=
  match coerceCell (cellAt r row "time"), coerceCell (cellAt r row "pos_x"),
      coerceCell (cellAt r row "pos_y") with
  | some t, some x, some y => some (t, x, y)
  | _, _, _ => none

/-- Position triples contributed by one record: nothing unless the record
bears position; a position-bearing record without a time column raises. -/
def poolOne (r : CelRec) : Except String (List (Rat × Rat × Rat)) :=
  if hasPosition r then
    if "time" ∈ r.fields then .ok (r.rows.filterMap (rowTriple r))
    else .error "KeyError"
  else .ok []

/-- Pool position triples from every record, in arrival order. -/
def positionPool : List (String × CelRec) → Except String (List (Rat × Rat × Rat))
  | [] => .ok []
  | (_, r) :: rest => do
    let ps ← poolOne r
    let qs ← positionPool rest
    .ok (ps ++ qs)

/-- Boolean time comparison on position triples. -/
def posLE (a b : Rat × Rat × Rat) : Bool := decide (a.1 ≤ b.1)

/-- Keep the first sample of each run of equal times in a time-sorted list
(the model of the unique-time deduplication). -/
def dedupTimes : List (Rat × Rat × Rat) → List (Rat × Rat × Rat)
  | [] => []
  | a :: rest => a :: dedupTimes (rest.dropWhile (fun b => b.1 = a.1))
termination_by l => l.length
decreasing_by
  simp only [List.length_cons]
  exact Nat.lt_succ_of_le (List.dropWhile_sublist _).length_le

/-- Model of the position merge: pool, sort ascending by time (a stable
sort, as Python's), then keep the first sample of each distinct time. -/
def positionTrace (cels : List (String × CelRec)) : Except String (List (Rat × Rat × Rat)) := do
  let pooled ← positionPool cels
  .ok (dedupTimes (pooled.mergeSort posLE))

/-! Binary map reader -/

/-- Byte at an offset of a byte string, zero beyond the end. -/
def byteAt (data : List Nat) (n : Nat) : Nat := data.getD n 0

/-- Big-endian 32-bit word starting at a byte offset. -/
def be32At (data : List Nat) (off : Nat) : Nat :=
  16777216 * byteAt data off + 65536 * byteAt data (off + 1)
    + 256 * byteAt data (off + 2) + byteAt data (off + 3)

/-- Two's-complement reading of a 32-bit word as a signed integer. -/
def toSigned32 (w : Nat) : Int :=
  if w < 2147483648 then (w : Int) else (w : Int) - 4294967296

/-- Classified fatal error of the binary reader. -/
inductive RmaErr where
  | unexpectedBinarySize (got : Nat)
deriving DecidableEq, Repr

/-- Parsed contents of one binary map file; float entries are represented
by their IEEE-754 bit patterns. -/
structure RmaParsed where
  rateMap : Fin 64 → Fin 64 → Nat
  occupancyMap : Fin 64 → Fin 64 → Int

/-- Model of `read_rma_file` on the byte string: the size gate, then the
two row-major 64 by 64 matrices, floats first, signed integers second. -/
def readRma (data : List Nat) : Except RmaErr RmaParsed :=
  if data.length ≠ 32768 then .error (.unexpectedBinarySize data.length)
  else
    .ok
      { rateMap := fun i j => be32At data (4 * (64 * i.val + j.val))
        occupancyMap := fun i j => toSigned32 (be32At data (16384 + 4 * (64 * i.val + j.val))) }

/-- Big-endian bytes of a 32-bit word. -/
def be32Bytes (w : Nat) : List Nat :=
  [w / 16777216 % 256, w / 65536 % 256, w / 256 % 256, w % 256]

/-- Two's-complement 32-bit word of a signed integer. -/
def toUnsigned32 (z : Int) : Nat := (z % 4294967296).toNat

/-- Row-major flattening of a 64 by 64 matrix. -/
def words64 (f : Fin 64 → Fin 64 → Nat) : List Nat :=
  (List.finRange 64).flatMap fun i => (List.finRange 64).map fun j => f i j

/-- Encoder following the layout words of the spec: 4096 big-endian 32-bit
floats row-major, then 4096 big-endian 32-bit signed integers row-major. -/
def encodeRma (r : Fin 64 → Fin 64 → Nat) (o : Fin 64 → Fin 64 → Int) : List Nat :=
  (words64 r).flatMap be32Bytes
    ++ (words64 (fun i j => toUnsigned32 (o i j))).flatMap be32Bytes

/-! Theorems -/

/-- C6. TimeCodec: for every input string the result is obtained by
splitting the trimmed input on the colon; any component failing integer
parsing, a component count other than 2 or 3, or an empty input yields the
NaN sentinel (`none`); three components give `h*3600 + m*60 + s` and two
give `m*60 + s`; in particular "1:02:03" gives 3723, "02:03" gives 123,
and "" and "ab:01" give the sentinel. The function is total, so no
exception escapes. -/
theorem timeCodec_characterization (s : String) :
    (parseTimeStr "1:02:03" = some 3723 ∧ parseTimeStr "02:03" = some 123 ∧
      parseTimeStr "" = none ∧ parseTimeStr "ab:01" = none) ∧
    (s = "" → parseTimeStr s = none) ∧
    ((splitOnChar ':' (charTrim s.data)).mapM pyInt = none → parseTimeStr s = none) ∧
    (∀ ps : List Int, (splitOnChar ':' (charTrim s.data)).mapM pyInt = some ps →
      ps.length ≠ 2 → ps.length ≠ 3 → parseTimeStr s = none) ∧
    (∀ h m sec : Int, (splitOnChar ':' (charTrim s.data)).mapM pyInt = some [h, m, sec] →
      s ≠ "" → parseTimeStr s = some (h * 3600 + m * 60 + sec)) ∧
    (∀ m sec : Int, (splitOnChar ':' (charTrim s.data)).mapM pyInt = some [m, sec] →
      s ≠ "" → parseTimeStr s = some (m * 60 + sec)) := by
  refine ⟨⟨by decide, by decide, by decide, by decide⟩, ?_, ?_, ?_, ?_, ?_⟩
  · intro h
    simp [parseTimeStr, h]
  · intro h
    by_cases hs : s = ""
    · simp [parseTimeStr, hs]
    · unfold parseTimeStr
      rw [if_neg hs, h]
  · intro ps hps h2 h3
    by_cases hs : s = ""
    · simp [parseTimeStr, hs]
    · unfold parseTimeStr
      rw [if_neg hs, hps]
      match ps, h2, h3 with
      | [], _, _ => rfl
      | [_], _, _ => rfl
      | [_, _], h2, _ => exact absurd rfl h2
      | [_, _, _], _, h3 => exact absurd rfl h3
      | _ :: _ :: _ :: _ :: _, _, _ => rfl
  · intro h m sec hps hs
    unfold parseTimeStr
    rw [if_neg hs, hps]
  · intro m sec hps hs
    unfold parseTimeStr
    rw [if_neg hs, hps]

/-- Witness for C6 at the concrete input "5:06". -/
theorem timeCodec_characterization_witness : parseTimeStr "5:06" = some 306 :=
  (timeCodec_characterization "5:06").2.2.2.2.2 5 6 (by decide) (by decide)

/-- C7. BinaryMapParser size check: the binary parse fails with the
unexpected-size error exactly when the input is not 32768 bytes long, and
a 32768-byte input parses without that error. -/
theorem rma_size_gate (data : List Nat) :
    (readRma data = .error (.unexpectedBinarySize data.length) ↔ data.length ≠ 32768) ∧
    (data.length = 32768 → ∃ v, readRma data = .ok v) := by
  by_cases h : data.length = 32768
  · constructor
    · constructor
      · intro he
        rw [readRma, if_neg (by rw [h]; decide)] at he
        cases he
      · intro hne
        exact absurd h hne
    · intro _
      exact ⟨_, by rw [readRma, if_neg (by rw [h]; decide)]⟩
  · constructor
    · simp [readRma, h]
    · intro hc
      exact absurd hc h

/-- Witness for C7 at a concrete 32768-byte input. -/
theorem rma_size_gate_witness : ∃ v, readRma (List.replicate 32768 0) = .ok v :=
  (rma_size_gate (List.replicate 32768 0)).2 (List.length_replicate 32768 0)

/-! Byte-layout lemmas for the binary reader -/

theorem length_flatMap_const {β : Type} (g : β → List Nat) (m : Nat)
    (hg : ∀ b, (g b).length = m) :
    ∀ l : List β, (l.flatMap g).length = m * l.length := by
  intro l
  induction l with
  | nil => simp
  | cons x rest ih =>
      simp only [List.flatMap_cons, List.length_append, ih, hg, List.length_cons]
      ring

theorem getD_flatMap_const {β : Type} (g : β → List Nat) (m : Nat)
    (hg : ∀ b, (g b).length = m) (e : β) :
    ∀ (l : List β) (k j : Nat), k < l.length → j < m →
      (l.flatMap g).getD (m * k + j) 0 = (g (l.getD k e)).getD j 0 := by
  intro l
  induction l with
  | nil => intro k j hk _; exact absurd hk (by simp)
  | cons x rest ih =>
      intro k j hk hj
      cases k with
      | zero =>
          simp only [List.flatMap_cons, Nat.mul_zero, Nat.zero_add, List.getD_cons_zero]
          rw [List.getD_eq_getElem?_getD, List.getElem?_append_left (by rw [hg]; exact hj),
            ← List.getD_eq_getElem?_getD]
      | succ k' =>
          simp only [List.flatMap_cons, List.getD_cons_succ]
          rw [List.getD_eq_getElem?_getD,
            List.getElem?_append_right (by rw [hg]; nlinarith [Nat.zero_le (m * k' + j)]),
            ← List.getD_eq_getElem?_getD]
          have harith : m * (k' + 1) + j - (g x).length = m * k' + j := by
            rw [hg]; ring_nf; omega
          rw [harith]
          exact ih k' j (by simpa using hk) hj

theorem words64_length (f : Fin 64 → Fin 64 → Nat) : (words64 f).length = 4096 := by
  unfold words64
  rw [length_flatMap_const _ 64 (fun b => by simp)]
  simp

theorem finRange_getD (n k : Nat) (hk : k < n) (e : Fin n) :
    (List.finRange n).getD k e = ⟨k, hk⟩ := by
  rw [List.getD_eq_getElem?_getD, List.getElem?_eq_getElem (by simp [hk])]
  simp [List.getElem_finRange, Fin.cast]

theorem words64_getD (f : Fin 64 → Fin 64 → Nat) (i j : Fin 64) :
    (words64 f).getD (64 * i.val + j.val) 0 = f i j := by
  unfold words64
  rw [getD_flatMap_const (fun a => (List.finRange 64).map fun b => f a b) 64
    (fun b => by simp) ⟨0, by omega⟩ _ i.val j.val (by simp [i.isLt]) j.isLt]
  rw [finRange_getD 64 i.val i.isLt]
  rw [List.getD_eq_getElem?_getD, List.getElem?_map,
    List.getElem?_eq_getElem (by simp [j.isLt])]
  simp [List.getElem_finRange, Fin.cast]

theorem mem_words64 {f : Fin 64 → Fin 64 → Nat} {w : Nat} (hw : w ∈ words64 f) :
    ∃ i j, w = f i j := by
  unfold words64 at hw
  simp only [List.mem_flatMap, List.mem_map] at hw
  obtain ⟨i, -, j, -, h⟩ := hw
  exact ⟨i, j, h.symm⟩

theorem byteAt_append_left (l1 l2 : List Nat) (n : Nat) (h : n < l1.length) :
    byteAt (l1 ++ l2) n = byteAt l1 n := by
  unfold byteAt
  rw [List.getD_eq_getElem?_getD, List.getElem?_append_left h, List.getD_eq_getElem?_getD]

theorem byteAt_append_right (l1 l2 : List Nat) (n : Nat) (h : l1.length ≤ n) :
    byteAt (l1 ++ l2) n = byteAt l2 (n - l1.length) := by
  unfold byteAt
  rw [List.getD_eq_getElem?_getD, List.getElem?_append_right h, List.getD_eq_getElem?_getD]

theorem be32At_append_left (l1 l2 : List Nat) (off : Nat) (h : off + 4 ≤ l1.length) :
    be32At (l1 ++ l2) off = be32At l1 off := by
  unfold be32At
  rw [byteAt_append_left l1 l2 off (by omega), byteAt_append_left l1 l2 (off + 1) (by omega),
    byteAt_append_left l1 l2 (off + 2) (by omega), byteAt_append_left l1 l2 (off + 3) (by omega)]

theorem be32At_append_right (l1 l2 : List Nat) (off : Nat) (h : l1.length ≤ off) :
    be32At (l1 ++ l2) off = be32At l2 (off - l1.length) := by
  unfold be32At
  rw [byteAt_append_right l1 l2 off (by omega), byteAt_append_right l1 l2 (off + 1) (by omega),
    byteAt_append_right l1 l2 (off + 2) (by omega), byteAt_append_right l1 l2 (off + 3) (by omega),
    show off + 1 - l1.length = off - l1.length + 1 by omega,
    show off + 2 - l1.length = off - l1.length + 2 by omega,
    show off + 3 - l1.length = off - l1.length + 3 by omega]

theorem be32At_flatMap (L : List Nat) (hL : ∀ w ∈ L, w < 4294967296) (k : Nat)
    (hk : k < L.length) :
    be32At (L.flatMap be32Bytes) (4 * k) = L.getD k 0 := by
  have hg : ∀ b : Nat, (be32Bytes b).length = 4 := fun b => rfl
  have h0 := getD_flatMap_const be32Bytes 4 hg 0 L k 0 hk (by omega)
  have h1 := getD_flatMap_const be32Bytes 4 hg 0 L k 1 hk (by omega)
  have h2 := getD_flatMap_const be32Bytes 4 hg 0 L k 2 hk (by omega)
  have h3 := getD_flatMap_const be32Bytes 4 hg 0 L k 3 hk (by omega)
  have hw : L.getD k 0 < 4294967296 := by
    rw [List.getD_eq_getElem?_getD, List.getElem?_eq_getElem hk]
    exact hL _ (List.getElem_mem hk)
  unfold be32At byteAt
  rw [show 4 * k = 4 * k + 0 by omega] at h0 ⊢
  rw [h0, show 4 * k + 0 + 1 = 4 * k + 1 by omega, h1,
    show 4 * k + 0 + 2 = 4 * k + 2 by omega, h2,
    show 4 * k + 0 + 3 = 4 * k + 3 by omega, h3]
  show 16777216 * (L.getD k 0 / 16777216 % 256) + 65536 * (L.getD k 0 / 65536 % 256)
      + 256 * (L.getD k 0 / 256 % 256) + L.getD k 0 % 256 = L.getD k 0
  omega

theorem toSigned32_toUnsigned32 (z : Int) (h1 : -2147483648 ≤ z) (h2 : z < 2147483648) :
    toSigned32 (toUnsigned32 z) = z := by
  unfold toSigned32 toUnsigned32
  omega

theorem encodeRma_length (r : Fin 64 → Fin 64 → Nat) (o : Fin 64 → Fin 64 → Int) :
    (encodeRma r o).length = 32768 := by
  unfold encodeRma
  rw [List.length_append, length_flatMap_const be32Bytes 4 (fun b => rfl),
    length_flatMap_const be32Bytes 4 (fun b => rfl), words64_length, words64_length]

/-- C8. BinaryMapParser layout round-trip: on a 32768-byte input the rate
map entry at row i, column j is the big-endian 32-bit word at byte offset
4*(64*i+j) (the bit pattern of the IEEE-754 float there), the occupancy
entry is the signed reading of the big-endian 32-bit word at offset
16384+4*(64*i+j), and hence encoding arbitrary in-range float patterns and
integers into the two halves and re-parsing reproduces them exactly at
every position, in particular at [0][0] and [63][63]. -/
theorem rma_layout_roundtrip (r : Fin 64 → Fin 64 → Nat) (o : Fin 64 → Fin 64 → Int)
    (hr : ∀ i j, r i j < 4294967296)
    (ho : ∀ i j, -2147483648 ≤ o i j ∧ o i j < 2147483648) :
    ∃ v, readRma (encodeRma r o) = .ok v ∧
      (∀ data : List Nat, data.length = 32768 → ∀ w, readRma data = .ok w →
        (∀ i j, w.rateMap i j = be32At data (4 * (64 * i.val + j.val))) ∧
        (∀ i j, w.occupancyMap i j = toSigned32 (be32At data (16384 + 4 * (64 * i.val + j.val))))) ∧
      (∀ i j, v.rateMap i j = r i j) ∧
      (∀ i j, v.occupancyMap i j = o i j) := by
  have hlen := encodeRma_length r o
  have hok : readRma (encodeRma r o) =
      .ok { rateMap := fun i j => be32At (encodeRma r o) (4 * (64 * i.val + j.val))
            occupancyMap := fun i j =>
              toSigned32 (be32At (encodeRma r o) (16384 + 4 * (64 * i.val + j.val))) } := by
    rw [readRma, if_neg (by rw [hlen]; decide)]
  refine ⟨_, hok, ?_, ?_, ?_⟩
  · intro data hdata w hw
    rw [readRma, if_neg (by rw [hdata]; decide)] at hw
    cases hw
    exact ⟨fun i j => rfl, fun i j => rfl⟩
  · intro i j
    show be32At (encodeRma r o) (4 * (64 * i.val + j.val)) = r i j
    have hn : 64 * i.val + j.val < 4096 := by
      have := i.isLt; have := j.isLt; omega
    rw [encodeRma, be32At_append_left _ _ _ (by
      rw [length_flatMap_const be32Bytes 4 (fun b => rfl), words64_length]; omega)]
    rw [be32At_flatMap _ (fun w hw => by obtain ⟨a, b, rfl⟩ := mem_words64 hw; exact hr a b) _
      (by rw [words64_length]; omega)]
    exact words64_getD r i j
  · intro i j
    show toSigned32 (be32At (encodeRma r o) (16384 + 4 * (64 * i.val + j.val))) = o i j
    have hn : 64 * i.val + j.val < 4096 := by
      have := i.isLt; have := j.isLt; omega
    have hlen1 : ((words64 r).flatMap be32Bytes).length = 16384 := by
      rw [length_flatMap_const be32Bytes 4 (fun b => rfl), words64_length]
    rw [encodeRma, be32At_append_right _ _ _ (by rw [hlen1]; omega), hlen1]
    rw [show 16384 + 4 * (64 * i.val + j.val) - 16384 = 4 * (64 * i.val + j.val) by omega]
    rw [be32At_flatMap _ (fun w hw => by
        obtain ⟨a, b, rfl⟩ := mem_words64 hw
        show toUnsigned32 (o a b) < 4294967296
        unfold toUnsigned32
        omega) _
      (by rw [words64_length]; omega)]
    rw [words64_getD]
    exact toSigned32_toUnsigned32 _ (ho i j).1 (ho i j).2

/-- Witness for C8 at concrete constant matrices. -/
theorem rma_layout_roundtrip_witness :
    ∃ v, readRma (encodeRma (fun _ _ => 3) (fun _ _ => -5)) = .ok v ∧
      (∀ i j, v.rateMap i j = 3) ∧ (∀ i j, v.occupancyMap i j = -5) := by
  obtain ⟨v, h1, -, h3, h4⟩ :=
    rma_layout_roundtrip (fun _ _ => 3) (fun _ _ => -5)
      (fun _ _ => by norm_num) (fun _ _ => by norm_num)
  exact ⟨v, h1, h3, h4⟩

/-! Order facts for the sort comparators -/

theorem charsLT_iff : ∀ cs ds : List Char, charsLT cs ds = true ↔ List.Lex (· < ·) cs ds := by
  intro cs
  induction cs with
  | nil =>
      intro ds
      cases ds with
      | nil =>
          constructor
          · intro h
            exact absurd h (by simp [charsLT])
          · intro h
            exact absurd h (List.Lex.not_nil_right _ _)
      | cons d ds =>
          constructor
          · intro _
            exact List.Lex.nil
          · intro _
            rfl
  | cons c cs ih =>
      intro ds
      cases ds with
      | nil =>
          constructor
          · intro h
            exact absurd h (by simp [charsLT])
          · intro h
            exact absurd h (List.Lex.not_nil_right _ _)
      | cons d ds =>
          simp only [charsLT, Bool.or_eq_true, Bool.and_eq_true, decide_eq_true_eq,
            beq_iff_eq, ih]
          constructor
          · rintro (hlt | ⟨rfl, hlex⟩)
            · exact List.Lex.rel hlt
            · exact List.Lex.cons hlex
          · intro h
            cases h with
            | cons h => exact Or.inr ⟨rfl, h⟩
            | rel h => exact Or.inl h

theorem strLT_iff (s t : String) : strLT s t = true ↔ s < t := by
  rw [String.lt_iff_toList_lt]
  exact charsLT_iff s.data t.data

theorem strLE_iff (s t : String) : (strLT s t || s == t) = true ↔ s ≤ t := by
  rw [Bool.or_eq_true, strLT_iff, beq_iff_eq, ← le_iff_lt_or_eq]

/-- Strict order on unit keys used to state the ascending-output claims. -/
def keyLT (a b : String × Int) : Prop :=
  a.1 < b.1 ∨ (a.1 = b.1 ∧ a.2 < b.2)

theorem keyLE_iff (a b : String × Int) :
    keyLE a b = true ↔ (a.1 < b.1 ∨ (a.1 = b.1 ∧ a.2 ≤ b.2)) := by
  simp only [keyLE, Bool.or_eq_true, Bool.and_eq_true, strLT_iff, beq_iff_eq,
    decide_eq_true_eq]

theorem keyLE_trans (a b c : String × Int) (h1 : keyLE a b) (h2 : keyLE b c) : keyLE a c := by
  rw [keyLE_iff] at h1 h2 ⊢
  rcases h1 with h1 | ⟨h1, h1'⟩ <;> rcases h2 with h2 | ⟨h2, h2'⟩
  · exact Or.inl (h1.trans h2)
  · exact Or.inl (h2 ▸ h1)
  · exact Or.inl (h1 ▸ h2)
  · exact Or.inr ⟨h1.trans h2, h1'.trans h2'⟩

theorem keyLE_total (a b : String × Int) : keyLE a b || keyLE b a := by
  rw [Bool.or_eq_true, keyLE_iff, keyLE_iff]
  rcases lt_trichotomy a.1 b.1 with h | h | h
  · exact Or.inl (Or.inl h)
  · rcases le_total a.2 b.2 with h' | h'
    · exact Or.inl (Or.inr ⟨h, h'⟩)
    · exact Or.inr (Or.inr ⟨h.symm, h'⟩)
  · exact Or.inr (Or.inl h)

theorem keyLT_of_keyLE_of_ne {a b : String × Int} (h : keyLE a b = true) (hne : a ≠ b) :
    keyLT a b := by
  rw [keyLE_iff] at h
  rcases h with h | ⟨h1, h2⟩
  · exact Or.inl h
  · refine Or.inr ⟨h1, lt_of_le_of_ne h2 (fun hc => hne ?_)⟩
    exact Prod.ext h1 hc

/-- Strict lexicographic order on epoch triples used to state the
ascending-output claim. -/
def epochLT (a b : Int × Int × String) : Prop :=
  a.1 < b.1 ∨ (a.1 = b.1 ∧ (a.2.1 < b.2.1 ∨ (a.2.1 = b.2.1 ∧ a.2.2 < b.2.2)))

theorem epochLE_iff (a b : Int × Int × String) :
    epochLE a b = true ↔
      (a.1 < b.1 ∨ (a.1 = b.1 ∧ (a.2.1 < b.2.1 ∨ (a.2.1 = b.2.1 ∧ a.2.2 ≤ b.2.2)))) := by
  simp only [epochLE, Bool.or_eq_true, Bool.and_eq_true, decide_eq_true_eq, strLT_iff,
    beq_iff_eq]
  rw [← le_iff_lt_or_eq]

theorem epochLE_trans (a b c : Int × Int × String) (h1 : epochLE a b) (h2 : epochLE b c) :
    epochLE a c := by
  rw [epochLE_iff] at h1 h2 ⊢
  rcases h1 with h1 | ⟨h1, h1'⟩ <;> rcases h2 with h2 | ⟨h2, h2'⟩
  · exact Or.inl (h1.trans h2)
  · exact Or.inl (h2 ▸ h1)
  · exact Or.inl (h1 ▸ h2)
  · refine Or.inr ⟨h1.trans h2, ?_⟩
    rcases h1' with h3 | ⟨h3, h3'⟩ <;> rcases h2' with h4 | ⟨h4, h4'⟩
    · exact Or.inl (h3.trans h4)
    · exact Or.inl (h4 ▸ h3)
    · exact Or.inl (h3 ▸ h4)
    · exact Or.inr ⟨h3.trans h4, h3'.trans h4'⟩

theorem epochLE_total (a b : Int × Int × String) : epochLE a b || epochLE b a := by
  rw [Bool.or_eq_true, epochLE_iff, epochLE_iff]
  rcases lt_trichotomy a.1 b.1 with h | h | h
  · exact Or.inl (Or.inl h)
  · rcases lt_trichotomy a.2.1 b.2.1 with h' | h' | h'
    · exact Or.inl (Or.inr ⟨h, Or.inl h'⟩)
    · rcases le_total a.2.2 b.2.2 with h'' | h''
      · exact Or.inl (Or.inr ⟨h, Or.inr ⟨h', h''⟩⟩)
      · exact Or.inr (Or.inr ⟨h.symm, Or.inr ⟨h'.symm, h''⟩⟩)
    · exact Or.inr (Or.inr ⟨h.symm, Or.inl h'⟩)
  · exact Or.inr (Or.inl h)

theorem epochLT_of_epochLE_of_ne {a b : Int × Int × String} (h : epochLE a b = true)
    (hne : a ≠ b) : epochLT a b := by
  rw [epochLE_iff] at h
  rcases h with h | ⟨h1, h2⟩
  · exact Or.inl h
  · refine Or.inr ⟨h1, ?_⟩
    rcases h2 with h2 | ⟨h2, h3⟩
    · exact Or.inl h2
    · refine Or.inr ⟨h2, lt_of_le_of_ne h3 (fun hc => hne ?_)⟩
      exact Prod.ext h1 (Prod.ext h2 hc)

theorem ratLE_trans (a b c : Rat) (h1 : ratLE a b) (h2 : ratLE b c) : ratLE a c := by
  simp only [ratLE, decide_eq_true_eq] at h1 h2 ⊢
  exact h1.trans h2

theorem ratLE_total (a b : Rat) : ratLE a b || ratLE b a := by
  simp only [ratLE, Bool.or_eq_true, decide_eq_true_eq]
  exact le_total a b

theorem posLE_trans (a b c : Rat × Rat × Rat) (h1 : posLE a b) (h2 : posLE b c) : posLE a c := by
  simp only [posLE, decide_eq_true_eq] at h1 h2 ⊢
  exact h1.trans h2

theorem posLE_total (a b : Rat × Rat × Rat) : posLE a b || posLE b a := by
  simp only [posLE, Bool.or_eq_true, decide_eq_true_eq]
  exact le_total a.1 b.1

/-! Epoch merge lemmas -/

theorem epochInsert_mem (es : List (Int × Int × String)) (e a : Int × Int × String) :
    a ∈ epochInsert es e ↔ a ∈ es ∨ a = e := by
  unfold epochInsert
  split
  · rename_i h
    constructor
    · exact Or.inl
    · rintro (h' | rfl)
      · exact h'
      · exact h
  · simp [List.mem_append]

theorem epochInsert_nodup {es : List (Int × Int × String)} (h : es.Nodup)
    (e : Int × Int × String) : (epochInsert es e).Nodup := by
  unfold epochInsert
  split
  · exact h
  · rename_i hne
    simp [List.nodup_append, h, hne]

theorem foldl_epochStep_mem (cels : List (String × CelRec)) :
    ∀ (acc : List (Int × Int × String)) (a : Int × Int × String),
      a ∈ cels.foldl epochStep acc ↔ a ∈ acc ∨ ∃ p ∈ cels, epochKey p.2 = some a := by
  induction cels with
  | nil => simp
  | cons q rest ih =>
      intro acc a
      rw [List.foldl_cons, ih]
      show a ∈ epochStep acc q ∨ _ ↔ _
      unfold epochStep
      cases hq : epochKey q.2 with
      | none =>
          constructor
          · rintro (h | ⟨p, hp, h⟩)
            · exact Or.inl h
            · exact Or.inr ⟨p, List.mem_cons_of_mem q hp, h⟩
          · rintro (h | ⟨p, hp, h⟩)
            · exact Or.inl h
            · rcases List.mem_cons.mp hp with rfl | hp'
              · rw [hq] at h
                cases h
              · exact Or.inr ⟨p, hp', h⟩
      | some e =>
          rw [epochInsert_mem]
          constructor
          · rintro ((h | rfl) | ⟨p, hp, h⟩)
            · exact Or.inl h
            · exact Or.inr ⟨q, List.mem_cons_self q rest, hq⟩
            · exact Or.inr ⟨p, List.mem_cons_of_mem q hp, h⟩
          · rintro (h | ⟨p, hp, h⟩)
            · exact Or.inl (Or.inl h)
            · rcases List.mem_cons.mp hp with rfl | hp'
              · rw [hq] at h
                cases h
                exact Or.inl (Or.inr rfl)
              · exact Or.inr ⟨p, hp', h⟩

theorem foldl_epochStep_nodup (cels : List (String × CelRec)) :
    ∀ acc : List (Int × Int × String), acc.Nodup → (cels.foldl epochStep acc).Nodup := by
  induction cels with
  | nil => exact fun acc h => h
  | cons q rest ih =>
      intro acc h
      rw [List.foldl_cons]
      apply ih
      show (epochStep acc q).Nodup
      unfold epochStep
      cases epochKey q.2 with
      | none => exact h
      | some e => exact epochInsert_nodup h e

/-- C2. Epoch set: an epoch triple is emitted exactly when some parsed
record has both times defined and yields that triple; equal triples
collapse to a single epoch (the output has no duplicates); and the output
is sorted strictly ascending in the lexicographic order on
(start, end, task type). -/
theorem epoch_merge_correct (cels : List (String × CelRec)) (a : Int × Int × String) :
    (a ∈ epochList cels ↔ ∃ p ∈ cels, epochKey p.2 = some a) ∧
    (epochList cels).Nodup ∧
    (epochList cels).Pairwise epochLT := by
  unfold epochList
  have hperm := List.mergeSort_perm (cels.foldl epochStep []) epochLE
  refine ⟨?_, ?_, ?_⟩
  · rw [List.mem_mergeSort, foldl_epochStep_mem]
    simp
  · exact hperm.nodup_iff.mpr (foldl_epochStep_nodup cels [] (by simp))
  · have hsorted := List.sorted_mergeSort epochLE_trans epochLE_total
      (cels.foldl epochStep [])
    have hnodup : (List.mergeSort (cels.foldl epochStep []) epochLE).Nodup :=
      hperm.nodup_iff.mpr (foldl_epochStep_nodup cels [] (by simp))
    exact (hsorted.and hnodup).imp (fun h => epochLT_of_epochLE_of_ne h.1 h.2)

/-! Unit merge lemmas -/

theorem addRec_eq_of_not_mem (gs : List ((String × Int) × List (List Rat)))
    (k : String × Int) (ts : List Rat)
    (h : gs.any (fun g => decide (g.1 = k)) = false) :
    addRec gs k ts = gs ++ [(k, [ts])] := by
  unfold addRec
  simp [h]

theorem addRec_eq_of_mem (gs : List ((String × Int) × List (List Rat)))
    (k : String × Int) (ts : List Rat)
    (h : gs.any (fun g => decide (g.1 = k)) = true) :
    addRec gs k ts = gs.map (fun g => if g.1 = k then (g.1, g.2 ++ [ts]) else g) := by
  unfold addRec
  rw [if_pos h]

theorem dictGet_addRec_self (gs : List ((String × Int) × List (List Rat)))
    (k : String × Int) (ts : List Rat) :
    dictGet (addRec gs k ts) k [] = dictGet gs k [] ++ [ts] := by
  by_cases h : gs.any (fun g => decide (g.1 = k)) = true
  · rw [addRec_eq_of_mem gs k ts h]
    unfold dictGet
    rw [List.find?_map]
    have hp : ((fun g : (String × Int) × List (List Rat) => decide (g.1 = k)) ∘
        (fun g => if g.1 = k then (g.1, g.2 ++ [ts]) else g)) =
        (fun g : (String × Int) × List (List Rat) => decide (g.1 = k)) := by
      funext g
      by_cases hg : g.1 = k <;> simp [hg]
    rw [hp]
    obtain ⟨g0, hg0mem, hg0⟩ := List.any_eq_true.mp h
    have hsome : (gs.find? (fun g => decide (g.1 = k))).isSome :=
      List.find?_isSome.mpr ⟨g0, hg0mem, hg0⟩
    obtain ⟨g1, hg1⟩ := Option.isSome_iff_exists.mp hsome
    rw [hg1]
    have hk1 : g1.1 = k := by simpa using List.find?_some hg1
    simp [hk1]
  · rw [Bool.not_eq_true] at h
    rw [addRec_eq_of_not_mem gs k ts h]
    unfold dictGet
    rw [List.find?_append]
    have hnone : gs.find? (fun g => decide (g.1 = k)) = none := by
      rw [List.find?_eq_none]
      intro x hx hpx
      have hc : gs.any (fun g => decide (g.1 = k)) = true :=
        List.any_eq_true.mpr ⟨x, hx, hpx⟩
      rw [h] at hc
      cases hc
    rw [hnone]
    simp

theorem dictGet_addRec_other (gs : List ((String × Int) × List (List Rat)))
    (k k' : String × Int) (ts : List Rat) (h : k' ≠ k) :
    dictGet (addRec gs k ts) k' [] = dictGet gs k' [] := by
  by_cases hmem : gs.any (fun g => decide (g.1 = k)) = true
  · rw [addRec_eq_of_mem gs k ts hmem]
    unfold dictGet
    rw [List.find?_map]
    have hp : ((fun g : (String × Int) × List (List Rat) => decide (g.1 = k')) ∘
        (fun g => if g.1 = k then (g.1, g.2 ++ [ts]) else g)) =
        (fun g : (String × Int) × List (List Rat) => decide (g.1 = k')) := by
      funext g
      by_cases hg : g.1 = k <;> simp [hg]
    rw [hp]
    cases hfind : gs.find? (fun g => decide (g.1 = k')) with
    | none => rfl
    | some g1 =>
        have hk1 : g1.1 = k' := by simpa using List.find?_some hfind
        have : ¬ g1.1 = k := by rw [hk1]; exact h
        simp [this]
  · rw [Bool.not_eq_true] at hmem
    rw [addRec_eq_of_not_mem gs k ts hmem]
    unfold dictGet
    rw [List.find?_append]
    cases hfind : gs.find? (fun g => decide (g.1 = k')) with
    | some g1 => simp
    | none =>
        simp only [Option.none_or]
        rw [List.find?_cons_of_neg _ (by simp [Ne.symm h]), List.find?_nil]

theorem keys_mem_iff (gs : List ((String × Int) × List (List Rat))) (k : String × Int) :
    gs.any (fun g => decide (g.1 = k)) = true ↔ k ∈ gs.map (fun g => g.1) := by
  simp [List.any_eq_true, List.mem_map]

theorem addRec_keys (gs : List ((String × Int) × List (List Rat)))
    (k : String × Int) (ts : List Rat) :
    (addRec gs k ts).map (fun g => g.1) =
      if gs.any (fun g => decide (g.1 = k)) then gs.map (fun g => g.1)
      else gs.map (fun g => g.1) ++ [k] := by
  by_cases h : gs.any (fun g => decide (g.1 = k)) = true
  · rw [addRec_eq_of_mem gs k ts h, if_pos h, List.map_map]
    congr 1
    funext g
    by_cases hg : g.1 = k <;> simp [hg]
  · rw [Bool.not_eq_true] at h
    rw [addRec_eq_of_not_mem gs k ts h, if_neg (by rw [h]; exact Bool.false_ne_true)]
    simp

theorem addRec_keys_nodup (gs : List ((String × Int) × List (List Rat)))
    (k : String × Int) (ts : List Rat) (h : (gs.map (fun g => g.1)).Nodup) :
    ((addRec gs k ts).map (fun g => g.1)).Nodup := by
  rw [addRec_keys]
  split
  · exact h
  · rename_i hany
    have hnot : k ∉ gs.map (fun g => g.1) := fun hc =>
      hany ((keys_mem_iff gs k).mpr hc)
    simp [List.nodup_append, h, hnot]

/-- Flatten of a dictionary value after one loop step. -/
theorem flatten_dictGet_addRec (acc : List ((String × Int) × List (List Rat)))
    (k0 k : String × Int) (ts : List Rat) :
    (dictGet (addRec acc k0 ts) k []).flatten =
      (dictGet acc k []).flatten ++ (if k0 = k then ts else []) := by
  by_cases hk : k0 = k
  · subst hk
    rw [dictGet_addRec_self, if_pos rfl, List.flatten_append]
    simp
  · rw [dictGet_addRec_other acc k0 k ts (fun hc => hk hc.symm), if_neg hk, List.append_nil]

/-- Key membership of the dictionary after one loop step. -/
theorem mem_keys_addRec (acc : List ((String × Int) × List (List Rat)))
    (k0 k : String × Int) (ts : List Rat) :
    k ∈ (addRec acc k0 ts).map (fun g => g.1) ↔
      k ∈ acc.map (fun g => g.1) ∨ k0 = k := by
  rw [addRec_keys]
  split
  · rename_i hany
    constructor
    · exact Or.inl
    · rintro (h | rfl)
      · exact h
      · exact (keys_mem_iff acc k0).mp hany
  · simp [List.mem_append, eq_comm]

/-- The grouping-loop invariant: after a successful pass over the records,
each key's concatenated arrays extend the accumulator's by exactly the
valid times of the matching records in arrival order; a key is present
exactly when it was present before or some record with that key has a
nonempty valid-time list; and key uniqueness is preserved. -/
theorem collectGroups_spec (cels : List (String × CelRec)) :
    ∀ acc gs : List ((String × Int) × List (List Rat)),
      collectGroups acc cels = .ok gs →
      (∀ k, (dictGet gs k []).flatten = (dictGet acc k []).flatten ++ groupTimes cels k) ∧
      (∀ k, k ∈ gs.map (fun g => g.1) ↔ k ∈ acc.map (fun g => g.1) ∨
        ∃ p ∈ cels, (p.1, clusterId p.2) = k ∧ validTimes p.2 ≠ []) ∧
      ((acc.map (fun g => g.1)).Nodup → (gs.map (fun g => g.1)).Nodup) := by
  induction cels with
  | nil =>
      intro acc gs h
      rw [collectGroups] at h
      cases h
      exact ⟨fun k => by simp [groupTimes], fun k => by simp [groupTimes], id⟩
  | cons p rest ih =>
      intro acc gs h
      obtain ⟨tt, r⟩ := p
      rw [collectGroups] at h
      simp only [Bind.bind] at h
      cases hcol : columnE r "time" with
      | error e =>
          rw [hcol] at h
          simp only [Except.bind] at h
          exact Except.noConfusion h
      | ok col =>
          rw [hcol] at h
          simp only [Except.bind] at h
          have hcoleq : col = column r "time" := by
            unfold columnE at hcol
            split at hcol
            · cases hcol
              rfl
            · cases hcol
          have hts : col.filterMap coerceCell = validTimes r := by
            rw [hcoleq]
            rfl
          rw [hts] at h
          by_cases hempty : validTimes r = []
          · rw [hempty] at h
            simp only [List.isEmpty_nil, if_pos] at h
            obtain ⟨h1, h2, h3⟩ := ih acc gs h
            refine ⟨fun k => ?_, fun k => ?_, h3⟩
            · rw [h1 k]
              unfold groupTimes
              rw [List.flatMap_cons]
              have : (if ((tt, r).1, clusterId (tt, r).2) = k then validTimes (tt, r).2
                  else []) = [] := by
                rw [hempty]
                split <;> rfl
              rw [this]
              rfl
            · rw [h2 k]
              constructor
              · rintro (hk | ⟨q, hq, hkey, hne⟩)
                · exact Or.inl hk
                · exact Or.inr ⟨q, List.mem_cons_of_mem _ hq, hkey, hne⟩
              · rintro (hk | ⟨q, hq, hkey, hne⟩)
                · exact Or.inl hk
                · rcases List.mem_cons.mp hq with rfl | hq'
                  · exact absurd hempty hne
                  · exact Or.inr ⟨q, hq', hkey, hne⟩
          · rw [if_neg (by simpa [List.isEmpty_iff] using hempty)] at h
            obtain ⟨h1, h2, h3⟩ := ih _ gs h
            refine ⟨fun k => ?_, fun k => ?_, ?_⟩
            · rw [h1 k, flatten_dictGet_addRec]
              unfold groupTimes
              rw [List.flatMap_cons, List.append_assoc]
            · rw [h2 k, mem_keys_addRec]
              constructor
              · rintro ((hk | hkey) | ⟨q, hq, hkey, hne⟩)
                · exact Or.inl hk
                · exact Or.inr ⟨(tt, r), List.mem_cons_self _ _, hkey, hempty⟩
                · exact Or.inr ⟨q, List.mem_cons_of_mem _ hq, hkey, hne⟩
              · rintro (hk | ⟨q, hq, hkey, hne⟩)
                · exact Or.inl (Or.inl hk)
                · rcases List.mem_cons.mp hq with rfl | hq'
                  · exact Or.inl (Or.inr hkey)
                  · exact Or.inr ⟨q, hq', hkey, hne⟩
            · intro hnd
              exact h3 (addRec_keys_nodup _ _ _ hnd)

theorem buildUnits_eq (cels : List (String × CelRec))
    (gs : List ((String × Int) × List (List Rat)))
    (h : collectGroups [] cels = .ok gs) :
    buildUnits cels = .ok (((gs.map (fun g => g.1)).mergeSort keyLE).map
      (fun k => (k, ((dictGet gs k []).flatten).mergeSort ratLE))) := by
  unfold buildUnits
  rw [h]
  rfl

/-- C1. Unit merge: whenever the grouping loop succeeds, the unit merge
emits (in ascending (tetrode, cluster) order, the sentinel -1 standing for
a missing cluster id) one unit per key realized by a record with at least
one valid spike time; each emitted unit's time sequence is exactly the
concatenation, in record arrival order, of the contributing records' valid
times, sorted ascending with equal timestamps kept (a permutation of the
concatenation, hence no deduplication). -/
theorem unit_merge_correct (cels : List (String × CelRec))
    (gs : List ((String × Int) × List (List Rat)))
    (hg : collectGroups [] cels = .ok gs) :
    ∃ us, buildUnits cels = .ok us ∧
      (us.map (fun u => u.1)).Pairwise keyLT ∧
      (∀ k ts, (k, ts) ∈ us →
        ts = (groupTimes cels k).mergeSort ratLE ∧
        ts.Perm (groupTimes cels k) ∧
        ts.Pairwise (fun a b => a ≤ b)) ∧
      (∀ k, (∃ ts, (k, ts) ∈ us) ↔
        ∃ p ∈ cels, (p.1, clusterId p.2) = k ∧ validTimes p.2 ≠ []) := by
  obtain ⟨h1, h2, h3⟩ := collectGroups_spec cels [] gs hg
  have hflat : ∀ k, (dictGet gs k []).flatten = groupTimes cels k := by
    intro k
    have := h1 k
    simpa [dictGet] using this
  have hkeys : ∀ k, k ∈ gs.map (fun g => g.1) ↔
      ∃ p ∈ cels, (p.1, clusterId p.2) = k ∧ validTimes p.2 ≠ [] := by
    intro k
    have := h2 k
    simpa using this
  have hnodup : (gs.map (fun g => g.1)).Nodup := h3 (by simp)
  refine ⟨_, buildUnits_eq cels gs hg, ?_, ?_, ?_⟩
  · rw [List.map_map]
    have hid : ((fun u : (String × Int) × List Rat => u.1) ∘
        (fun k => (k, ((dictGet gs k []).flatten).mergeSort ratLE))) = id := by
      funext k
      rfl
    rw [hid, List.map_id]
    have hsorted := List.sorted_mergeSort keyLE_trans keyLE_total (gs.map (fun g => g.1))
    have hnd : ((gs.map (fun g => g.1)).mergeSort keyLE).Nodup :=
      (List.mergeSort_perm (gs.map (fun g => g.1)) keyLE).nodup_iff.mpr hnodup
    exact (hsorted.and hnd).imp (fun h => keyLT_of_keyLE_of_ne h.1 h.2)
  · intro k ts hmem
    obtain ⟨k1, hk1, heq⟩ := List.mem_map.mp hmem
    obtain ⟨rfl, rfl⟩ : k1 = k ∧ ((dictGet gs k1 []).flatten).mergeSort ratLE = ts := by
      have h1' := congrArg Prod.fst heq
      have h2' := congrArg Prod.snd heq
      exact ⟨h1', h2'⟩
    rw [hflat]
    refine ⟨rfl, List.mergeSort_perm _ _, ?_⟩
    exact (List.sorted_mergeSort ratLE_trans ratLE_total _).imp
      (fun h => by simpa [ratLE] using h)
  · intro k
    constructor
    · rintro ⟨ts, hmem⟩
      obtain ⟨k1, hk1, heq⟩ := List.mem_map.mp hmem
      have : k1 = k := congrArg Prod.fst heq
      subst this
      exact (hkeys k1).mp (List.mem_mergeSort.mp hk1)
    · intro hex
      refine ⟨((dictGet gs k []).flatten).mergeSort ratLE, ?_⟩
      exact List.mem_map.mpr ⟨k, List.mem_mergeSort.mpr ((hkeys k).mpr hex), rfl⟩

/-- Concrete record: cluster 3, spike times 1.0 and 3.0. -/
def celA : CelRec :=
  { stem := "BL1", fields := ["time"], header := [("Cluster", "3")],
    rows := [[Cell.num 1], [Cell.num 3]] }

/-- Concrete record: cluster 3, spike time 2.0. -/
def celB : CelRec :=
  { stem := "BL2", fields := ["time"], header := [("Cluster", "3")],
    rows := [[Cell.num 2]] }

/-- Witness for C1 at two concrete records sharing (TT0, 3). -/
theorem unit_merge_correct_witness :
    ∃ us, buildUnits [("TT0", celA), ("TT0", celB)] = .ok us ∧
      (us.map (fun u => u.1)).Pairwise keyLT ∧
      (∀ k ts, (k, ts) ∈ us →
        ts = (groupTimes [("TT0", celA), ("TT0", celB)] k).mergeSort ratLE ∧
        ts.Perm (groupTimes [("TT0", celA), ("TT0", celB)] k) ∧
        ts.Pairwise (fun a b => a ≤ b)) ∧
      (∀ k, (∃ ts, (k, ts) ∈ us) ↔
        ∃ p ∈ [("TT0", celA), ("TT0", celB)],
          (p.1, clusterId p.2) = k ∧ validTimes p.2 ≠ []) :=
  unit_merge_correct [("TT0", celA), ("TT0", celB)]
    [(("TT0", 3), [[1, 3], [2]])] (by decide)

/-- A record with a time column but no valid spike times leaves the
grouping loop's state unchanged. -/
theorem collectGroups_skip (pre : List (String × CelRec)) (tt : String) (r : CelRec)
    (htime : "time" ∈ r.fields) (hval : validTimes r = []) :
    ∀ (acc : List ((String × Int) × List (List Rat))) (post : List (String × CelRec)),
      collectGroups acc (pre ++ (tt, r) :: post) = collectGroups acc (pre ++ post) := by
  induction pre with
  | nil =>
      intro acc post
      rw [List.nil_append, List.nil_append, collectGroups]
      have hcol : columnE r "time" = .ok (column r "time") := by
        unfold columnE
        rw [if_pos htime]
      rw [hcol]
      simp only [Bind.bind, Except.bind]
      rw [show (column r "time").filterMap coerceCell = validTimes r from rfl, hval]
      simp
  | cons q pre ih =>
      intro acc post
      obtain ⟨tq, rq⟩ := q
      rw [List.cons_append, List.cons_append, collectGroups, collectGroups]
      cases hc : columnE rq "time" with
      | error e =>
          simp only [Bind.bind, Except.bind]
      | ok col =>
          simp only [Bind.bind, Except.bind]
          exact ih _ _

/-- C10. Empty units omitted: when every record of a (tetrode, cluster)
group has no valid spike times, no unit row with that key is emitted at
all; and a record with a time column but no valid spike times contributes
nothing: deleting it from the input leaves the unit merge's output
unchanged. -/
theorem empty_group_omitted (cels : List (String × CelRec))
    (gs : List ((String × Int) × List (List Rat))) (k : String × Int)
    (pre post : List (String × CelRec)) (tt : String) (r : CelRec) :
    (collectGroups [] cels = .ok gs →
      (∀ p ∈ cels, (p.1, clusterId p.2) = k → validTimes p.2 = []) →
      ∃ us, buildUnits cels = .ok us ∧ k ∉ us.map (fun u => u.1)) ∧
    ("time" ∈ r.fields → validTimes r = [] →
      buildUnits (pre ++ (tt, r) :: post) = buildUnits (pre ++ post)) := by
  constructor
  · intro hg hall
    obtain ⟨-, h2, -⟩ := collectGroups_spec cels [] gs hg
    refine ⟨_, buildUnits_eq cels gs hg, ?_⟩
    intro hc
    rw [List.map_map] at hc
    have hid : ((fun u : (String × Int) × List Rat => u.1) ∘
        (fun k => (k, ((dictGet gs k []).flatten).mergeSort ratLE))) = id := by
      funext k1
      rfl
    rw [hid, List.map_id, List.mem_mergeSort] at hc
    have := (h2 k).mp hc
    simp only [List.map_nil, List.not_mem_nil, false_or] at this
    obtain ⟨p, hp, hkey, hne⟩ := this
    exact hne (hall p hp hkey)
  · intro htime hval
    unfold buildUnits
    rw [collectGroups_skip pre tt r htime hval [] post]

/-- Concrete record: cluster 7 with no valid spike times. -/
def celC : CelRec :=
  { stem := "BL3", fields := ["time"], header := [("Cluster", "7")],
    rows := [[Cell.txt "x"]] }

/-- Witness for C10: the all-invalid group (TT0, 7) emits no unit. -/
theorem empty_group_omitted_witness :
    ∃ us, buildUnits [("TT0", celC)] = .ok us ∧ ("TT0", 7) ∉ us.map (fun u => u.1) :=
  (empty_group_omitted [("TT0", celC)] [] ("TT0", 7) [] [] "TT0" celC).1
    (by decide) (by decide)

/-! Position trace lemmas -/

theorem pairwise_posLE_of_const {t : Rat} :
    ∀ {l : List (Rat × Rat × Rat)}, (∀ a ∈ l, a.1 = t) →
      l.Pairwise (fun a b => posLE a b = true) := by
  intro l
  induction l with
  | nil => intro _; exact List.Pairwise.nil
  | cons a rest ih =>
      intro h
      refine List.Pairwise.cons (fun b hb => ?_)
        (ih fun b hb => h b (List.mem_cons_of_mem _ hb))
      simp only [posLE, decide_eq_true_eq]
      rw [h a (List.mem_cons_self _ _), h b (List.mem_cons_of_mem _ hb)]

/-- Every element surviving the head's equal-time run is strictly later
than the head, in a time-sorted list. -/
theorem dropWhile_time_gt :
    ∀ (rest : List (Rat × Rat × Rat)) (a : Rat × Rat × Rat),
      (∀ x ∈ rest, a.1 ≤ x.1) → rest.Pairwise (fun x y => x.1 ≤ y.1) →
      ∀ b ∈ rest.dropWhile (fun b => decide (b.1 = a.1)), a.1 < b.1 := by
  intro rest
  induction rest with
  | nil => intro a _ _ b hb; cases hb
  | cons c tail ih =>
      intro a hle hp b hb
      by_cases hc : c.1 = a.1
      · rw [List.dropWhile_cons_of_pos (by simpa using hc)] at hb
        exact ih a (fun x hx => hle x (List.mem_cons_of_mem _ hx)) hp.of_cons b hb
      · rw [List.dropWhile_cons_of_neg (by simpa using hc)] at hb
        have hac : a.1 < c.1 := lt_of_le_of_ne (hle c (List.mem_cons_self _ _)) (Ne.symm hc)
        rcases List.mem_cons.mp hb with rfl | htail
        · exact hac
        · exact lt_of_lt_of_le hac (List.rel_of_pairwise_cons hp htail)

theorem dedupTimes_sublist_aux :
    ∀ (n : Nat) (l : List (Rat × Rat × Rat)), l.length ≤ n → List.Sublist (dedupTimes l) l := by
  intro n
  induction n with
  | zero =>
      intro l h
      have hl : l = [] := List.length_eq_zero.mp (Nat.le_zero.mp h)
      subst hl
      rw [dedupTimes]
  | succ n ih =>
      intro l h
      cases l with
      | nil => rw [dedupTimes]
      | cons a rest =>
          rw [dedupTimes]
          refine List.Sublist.cons₂ a ?_
          exact (ih _ (le_trans (List.dropWhile_sublist _).length_le
            (by simpa using h))).trans (List.dropWhile_sublist _)

theorem dedupTimes_sublist (l : List (Rat × Rat × Rat)) : List.Sublist (dedupTimes l) l :=
  dedupTimes_sublist_aux l.length l le_rfl

theorem dedupTimes_pairwise_aux :
    ∀ (n : Nat) (l : List (Rat × Rat × Rat)), l.length ≤ n →
      l.Pairwise (fun a b => a.1 ≤ b.1) →
      (dedupTimes l).Pairwise (fun a b => a.1 < b.1) := by
  intro n
  induction n with
  | zero =>
      intro l h _
      have hl : l = [] := List.length_eq_zero.mp (Nat.le_zero.mp h)
      subst hl
      rw [dedupTimes]
      exact List.Pairwise.nil
  | succ n ih =>
      intro l h hp
      cases l with
      | nil => rw [dedupTimes]; exact List.Pairwise.nil
      | cons a rest =>
          rw [dedupTimes]
          have hgt := dropWhile_time_gt rest a
            (fun x hx => List.rel_of_pairwise_cons hp hx) hp.of_cons
          refine List.Pairwise.cons
            (fun b hb => hgt b ((dedupTimes_sublist _).subset hb)) ?_
          refine ih _ (le_trans (List.dropWhile_sublist _).length_le (by simpa using h)) ?_
          exact List.Pairwise.sublist (List.dropWhile_sublist _) hp.of_cons

theorem dedupTimes_pairwise (l : List (Rat × Rat × Rat))
    (hp : l.Pairwise (fun a b => a.1 ≤ b.1)) :
    (dedupTimes l).Pairwise (fun a b => a.1 < b.1) :=
  dedupTimes_pairwise_aux l.length l le_rfl hp

theorem dedupTimes_filter_aux :
    ∀ (n : Nat) (l : List (Rat × Rat × Rat)), l.length ≤ n →
      l.Pairwise (fun a b => a.1 ≤ b.1) → ∀ t : Rat,
      (dedupTimes l).filter (fun s => decide (s.1 = t)) =
        (l.filter (fun s => decide (s.1 = t))).take 1 := by
  intro n
  induction n with
  | zero =>
      intro l h _ t
      have hl : l = [] := List.length_eq_zero.mp (Nat.le_zero.mp h)
      subst hl
      rw [dedupTimes]
      rfl
  | succ n ih =>
      intro l h hp t
      cases l with
      | nil => rw [dedupTimes]; rfl
      | cons a rest =>
          rw [dedupTimes]
          have hgt := dropWhile_time_gt rest a
            (fun x hx => List.rel_of_pairwise_cons hp hx) hp.of_cons
          by_cases ha : a.1 = t
          · rw [List.filter_cons_of_pos (by simpa using ha),
              List.filter_cons_of_pos (by simpa using ha)]
            have hempty : (dedupTimes (rest.dropWhile (fun b => decide (b.1 = a.1)))).filter
                (fun s => decide (s.1 = t)) = [] := by
              rw [List.filter_eq_nil_iff]
              intro b hb
              have hab : a.1 < b.1 := hgt b ((dedupTimes_sublist _).subset hb)
              simp only [decide_eq_true_eq]
              intro hbt
              rw [hbt, ← ha] at hab
              exact lt_irrefl _ hab
            rw [hempty]
            simp [List.take]
          · rw [List.filter_cons_of_neg (by simpa using ha),
              List.filter_cons_of_neg (by simpa using ha)]
            rw [ih _ (le_trans (List.dropWhile_sublist _).length_le (by simpa using h))
              (List.Pairwise.sublist (List.dropWhile_sublist _) hp.of_cons) t]
            congr 1
            conv_rhs => rw [← List.takeWhile_append_dropWhile
              (fun b => decide (b.1 = a.1)) rest]
            rw [List.filter_append]
            have hnil : (rest.takeWhile (fun b => decide (b.1 = a.1))).filter
                (fun s => decide (s.1 = t)) = [] := by
              rw [List.filter_eq_nil_iff]
              intro b hb
              have hba : b.1 = a.1 := by simpa using List.mem_takeWhile_imp hb
              simp only [decide_eq_true_eq]
              intro hbt
              exact ha (hba ▸ hbt)
            rw [hnil, List.nil_append]

theorem dedupTimes_filter (l : List (Rat × Rat × Rat))
    (hp : l.Pairwise (fun a b => a.1 ≤ b.1)) (t : Rat) :
    (dedupTimes l).filter (fun s => decide (s.1 = t)) =
      (l.filter (fun s => decide (s.1 = t))).take 1 :=
  dedupTimes_filter_aux l.length l le_rfl hp t

/-- Stability of the time sort: the subsequence of samples at one fixed
time is unchanged by the sort. -/
theorem mergeSort_filter_time (pooled : List (Rat × Rat × Rat)) (t : Rat) :
    (pooled.mergeSort posLE).filter (fun s => decide (s.1 = t)) =
      pooled.filter (fun s => decide (s.1 = t)) := by
  have hall : ∀ a ∈ pooled.filter (fun s => decide (s.1 = t)), a.1 = t := by
    intro a ha
    simpa using (List.mem_filter.mp ha).2
  have hsub : List.Sublist (pooled.filter (fun s => decide (s.1 = t)))
      (pooled.mergeSort posLE) :=
    List.sublist_mergeSort posLE_trans posLE_total
      (pairwise_posLE_of_const hall) (List.filter_sublist pooled)
  have hsub2 : List.Sublist (pooled.filter (fun s => decide (s.1 = t)))
      ((pooled.mergeSort posLE).filter (fun s => decide (s.1 = t))) := by
    have hstep := hsub.filter (fun s => decide (s.1 = t))
    rwa [List.filter_eq_self.mpr (fun a ha => by simpa using hall a ha)] at hstep
  have hperm : ((pooled.mergeSort posLE).filter (fun s => decide (s.1 = t))).Perm
      (pooled.filter (fun s => decide (s.1 = t))) :=
    (List.mergeSort_perm pooled posLE).filter _
  exact (hsub2.eq_of_length hperm.length_eq.symm).symm

/-- C3. Position trace: whenever pooling succeeds, the emitted trace
contains only pooled triples (those of position-bearing records with time,
x and y all non-missing), is sorted strictly ascending by time, and for
every time value retains exactly the first pooled triple with that time,
dropping the rest. -/
theorem position_trace_correct (cels : List (String × CelRec))
    (pooled : List (Rat × Rat × Rat)) (hp : positionPool cels = .ok pooled) :
    ∃ trace, positionTrace cels = .ok trace ∧
      (∀ s ∈ trace, s ∈ pooled) ∧
      trace.Pairwise (fun a b => a.1 < b.1) ∧
      (∀ t : Rat, trace.filter (fun s => decide (s.1 = t)) =
        (pooled.filter (fun s => decide (s.1 = t))).take 1) := by
  have htrace : positionTrace cels = .ok (dedupTimes (pooled.mergeSort posLE)) := by
    unfold positionTrace
    rw [hp]
    rfl
  have hsorted : (pooled.mergeSort posLE).Pairwise (fun a b => a.1 ≤ b.1) :=
    (List.sorted_mergeSort posLE_trans posLE_total pooled).imp
      (fun hab => by simpa [posLE] using hab)
  refine ⟨_, htrace, ?_, dedupTimes_pairwise _ hsorted, ?_⟩
  · intro s hs
    exact List.mem_mergeSort.mp ((dedupTimes_sublist _).subset hs)
  · intro t
    rw [dedupTimes_filter _ hsorted t, mergeSort_filter_time]

/-- Concrete position-bearing record with a duplicated time sample. -/
def celP : CelRec :=
  { stem := "ES1", fields := ["time", "pos_x", "pos_y"], header := [],
    rows := [[Cell.num 5, Cell.num 1, Cell.num 2], [Cell.num 5, Cell.num 9, Cell.num 9],
             [Cell.num 6, Cell.num 3, Cell.num 4]] }

/-- Witness for C3 at a concrete pool with two samples at time 5. -/
theorem position_trace_correct_witness :
    ∃ trace, positionTrace [("TT0", celP)] = .ok trace ∧
      (∀ s ∈ trace, s ∈ [((5 : Rat), (1 : Rat), (2 : Rat)), (5, 9, 9), (6, 3, 4)]) ∧
      trace.Pairwise (fun a b => a.1 < b.1) ∧
      (∀ t : Rat, trace.filter (fun s => decide (s.1 = t)) =
        ([((5 : Rat), (1 : Rat), (2 : Rat)), (5, 9, 9), (6, 3, 4)].filter
          (fun s => decide (s.1 = t))).take 1) :=
  position_trace_correct [("TT0", celP)] [(5, 1, 2), (5, 9, 9), (6, 3, 4)] (by decide)

/-! Header scan lemmas -/

theorem scanAux_endIdx :
    ∀ (ls : List String) (fs : Option (List String)) (hdr : List (String × String)) (idx : Nat),
      (scanAux fs hdr idx ls).2.2.isSome =
        ls.any (fun l => decide (charTrim l.data = endHeaderTok)) := by
  intro ls
  induction ls with
  | nil => intro fs hdr idx; rfl
  | cons l rest ih =>
      intro fs hdr idx
      rw [scanAux]
      by_cases hl : charTrim l.data = endHeaderTok
      · rw [if_pos hl]
        simp [hl]
      · rw [if_neg hl]
        rw [List.any_cons]
        simp only [hl, decide_False, Bool.false_or]
        exact ih _ _ _

theorem scanAux_fields :
    ∀ (ls : List String) (fs : Option (List String)) (hdr : List (String × String)) (idx : Nat),
      (scanAux fs hdr idx ls).1.isSome =
        (fs.isSome || (winUpTo ls).any isFieldsLine) := by
  intro ls
  induction ls with
  | nil => intro fs hdr idx; simp [scanAux, winUpTo]
  | cons l rest ih =>
      intro fs hdr idx
      rw [scanAux, winUpTo]
      by_cases hl : charTrim l.data = endHeaderTok
      · rw [if_pos hl, if_pos hl]
        by_cases hf : fieldsMatch (charTrim l.data)
        · simp [isFieldsLine, hf]
        · simp [isFieldsLine, hf]
      · rw [if_neg hl, if_neg hl]
        rw [ih]
        by_cases hf : fieldsMatch (charTrim l.data)
        · simp [isFieldsLine, hf]
        · simp [isFieldsLine, hf]

/-- C5. TextRecordParser error cases: the parse fails with the
missing-fields error exactly when no fields-declaration line occurs in the
scan window (the first 800 lines truncated at the sentinel); given a
fields line in the window, it fails with the missing-end-header error
exactly when no line among the first 800 equals the sentinel after
stripping; and with a fields line in the window and a sentinel among the
first 800 lines the parse raises neither error. -/
theorem readCel_error_cases (lines : List String) (stem : String) :
    (readCel lines stem = .error .missingFields ↔
      ∀ l ∈ scanWindow lines, isFieldsLine l = false) ∧
    ((∃ l ∈ scanWindow lines, isFieldsLine l = true) →
      (readCel lines stem = .error .missingEndHeader ↔
        ∀ l ∈ lines.take 800, charTrim l.data ≠ endHeaderTok)) ∧
    ((∃ l ∈ scanWindow lines, isFieldsLine l = true) →
      (∃ l ∈ lines.take 800, charTrim l.data = endHeaderTok) →
      ∃ r, readCel lines stem = .ok r) := by
  have hfields := scanAux_fields (lines.take 800) none [] 0
  have hidx := scanAux_endIdx (lines.take 800) none [] 0
  unfold readCel
  rcases hres : scanAux none [] 0 (lines.take 800) with ⟨ofs, hdr, oidx⟩
  rw [hres] at hfields hidx
  simp only [Option.isSome_none, Bool.false_or] at hfields hidx
  rw [show scanWindow lines = winUpTo (lines.take 800) from rfl]
  refine ⟨?_, ?_, ?_⟩
  · cases ofs with
    | none =>
        simp only [true_iff]
        intro l hl
        by_contra hc
        have hany : (winUpTo (lines.take 800)).any isFieldsLine = true :=
          List.any_eq_true.mpr ⟨l, hl, by simpa using hc⟩
        rw [hany] at hfields
        exact Bool.noConfusion hfields
    | some fs =>
        have hany : (winUpTo (lines.take 800)).any isFieldsLine = true := by
          rw [← hfields]
          rfl
        obtain ⟨l0, hl0, hfl0⟩ := List.any_eq_true.mp hany
        cases oidx with
        | none =>
            constructor
            · intro hc
              injection hc with hc
              cases hc
            · intro hall
              have := hall l0 hl0
              rw [this] at hfl0
              exact Bool.noConfusion hfl0
        | some i =>
            constructor
            · intro hc
              exact Except.noConfusion hc
            · intro hall
              have := hall l0 hl0
              rw [this] at hfl0
              exact Bool.noConfusion hfl0
  · rintro ⟨l0, hl0, hfl0⟩
    have hany : (winUpTo (lines.take 800)).any isFieldsLine = true :=
      List.any_eq_true.mpr ⟨l0, hl0, hfl0⟩
    rw [hany] at hfields
    cases ofs with
    | none => exact Bool.noConfusion hfields
    | some fs =>
        cases oidx with
        | none =>
            simp only [true_iff]
            intro l hl hc
            have hany2 : (lines.take 800).any
                (fun l => decide (charTrim l.data = endHeaderTok)) = true :=
              List.any_eq_true.mpr ⟨l, hl, by simpa using hc⟩
            rw [hany2] at hidx
            exact Bool.noConfusion hidx
        | some i =>
            constructor
            · intro hc
              exact Except.noConfusion hc
            · intro hall
              have hany2 : (lines.take 800).any
                  (fun l => decide (charTrim l.data = endHeaderTok)) = true := by
                rw [← hidx]
                rfl
              obtain ⟨l, hl, hls⟩ := List.any_eq_true.mp hany2
              exact absurd (by simpa using hls) (hall l hl)
  · rintro ⟨l0, hl0, hfl0⟩ ⟨l1, hl1, hls1⟩
    have hany : (winUpTo (lines.take 800)).any isFieldsLine = true :=
      List.any_eq_true.mpr ⟨l0, hl0, hfl0⟩
    have hany2 : (lines.take 800).any
        (fun l => decide (charTrim l.data = endHeaderTok)) = true :=
      List.any_eq_true.mpr ⟨l1, hl1, by simpa using hls1⟩
    rw [hany] at hfields
    rw [hany2] at hidx
    cases ofs with
    | none => exact Bool.noConfusion hfields
    | some fs =>
        cases oidx with
        | none => exact Bool.noConfusion hidx
        | some i => exact ⟨_, rfl⟩

/-- Witness for C5 at a concrete two-line header. -/
theorem readCel_error_cases_witness :
    ∃ r, readCel ["% fields: time", "%%ENDHEADER"] "BL1" = .ok r :=
  (readCel_error_cases ["% fields: time", "%%ENDHEADER"] "BL1").2.2
    (by decide) (by decide)

/-! Row table construction -/

theorem mkRow_getD (fields : List String) (tokens : List (List Char)) (i : Nat)
    (hi : i < fields.length) :
    (mkRow fields tokens).getD i Cell.na =
      (match tokens[i]? with
       | some t => parseToken t
       | none => Cell.na) := by
  unfold mkRow
  rw [List.getD_eq_getElem?_getD, List.getElem?_map, List.getElem?_range hi]
  rfl

/-- Counterexample for C9: a data row whose only token fails numeric
coercion is kept in the row table as raw text; it is not dropped, even
though every field value of the row fails numeric coercion. -/
theorem rowtable_allmissing_kept :
    readCel ["% fields: time", "%%ENDHEADER", "abc"] "BL1" =
      .ok { stem := "BL1", fields := ["time"], header := [],
            rows := [[Cell.txt "abc"]] } ∧
    (∀ c ∈ [Cell.txt "abc"], coerceCell c = none) :=
  ⟨by decide, by decide⟩

/-- C9 amended. Text row table: every data row of a successfully parsed
file is built by mapping its whitespace tokens positionally onto the field
list — a token is numerically coerced when it parses as a number, recorded
as missing when it is a missing-value marker or padding of a short row,
and otherwise retained as raw text (it coerces to missing only at later
numeric extraction); rows in which every cell is the missing-value marker
are dropped, so every row of the table has at least one non-missing cell. -/
theorem rowtable_construction (lines : List String) (stem : String) (r : CelRec)
    (h : readCel lines stem = .ok r) :
    ∀ row ∈ r.rows, (∃ c ∈ row, c ≠ Cell.na) ∧
      ∃ tokens : List (List Char), ¬ tokens.isEmpty ∧ row = mkRow r.fields tokens ∧
        ∀ i : Nat, i < r.fields.length →
          row.getD i Cell.na =
            (match tokens[i]? with
             | some t => parseToken t
             | none => Cell.na) := by
  unfold readCel at h
  rcases hres : scanAux none [] 0 (lines.take 800) with ⟨ofs, hdr, oidx⟩
  rw [hres] at h
  cases ofs with
  | none => exact Except.noConfusion h
  | some fs =>
      cases oidx with
      | none => exact Except.noConfusion h
      | some i =>
          injection h with h
          subst h
          intro row hrow
          simp only at hrow
          unfold mkRows at hrow
          obtain ⟨hmem, hnotall⟩ := List.mem_filter.mp hrow
          obtain ⟨tokens, htokmem, hroweq⟩ := List.mem_map.mp hmem
          obtain ⟨-, htok⟩ := List.mem_filter.mp htokmem
          constructor
          · simp only [decide_eq_true_eq] at hnotall
            rw [List.all_eq_true] at hnotall
            push_neg at hnotall
            obtain ⟨c, hc, hcna⟩ := hnotall
            refine ⟨c, hc, fun hceq => hcna ?_⟩
            rw [hceq]
            rfl
          · exact ⟨tokens, by simpa using htok, hroweq.symm, fun j hj => by
              rw [hroweq.symm]
              exact mkRow_getD fs tokens j hj⟩

/-- Witness for C9 amended at a concrete one-row file. -/
theorem rowtable_construction_witness :
    ∃ c ∈ [Cell.num 1], c ≠ Cell.na :=
  ((rowtable_construction ["% fields: time", "%%ENDHEADER", "1.0"] "BL1"
    { stem := "BL1", fields := ["time"], header := [], rows := [[Cell.num 1]] }
    (by decide)) [Cell.num 1] (by decide)).1

/-! Failure isolation -/

/-- Concrete record whose field list lacks a time column. -/
def celNoTime : CelRec :=
  { stem := "BL2", fields := ["foo"], header := [], rows := [[Cell.num 1]] }

/-- Counterexample for C4: a text file whose field list lacks a "time"
column parses successfully — so it is not excluded at the assembler
boundary — and the unit merge over the collected records then aborts with
the uncaught key error instead of completing. -/
theorem failure_isolation_counterexample :
    readCel ["% fields: foo", "%%ENDHEADER", "1.0"] "BL2" = .ok celNoTime ∧
    collectCels [("TT1", Except.ok celA), ("TT1", Except.ok celNoTime)] =
      [("TT1", celA), ("TT1", celNoTime)] ∧
    buildUnits [("TT1", celA), ("TT1", celNoTime)] = .error "KeyError" :=
  ⟨by decide, by decide, by decide⟩

theorem collectGroups_ok (cels : List (String × CelRec))
    (hall : ∀ p ∈ cels, "time" ∈ p.2.fields) :
    ∀ acc, ∃ gs, collectGroups acc cels = .ok gs := by
  induction cels with
  | nil => intro acc; exact ⟨acc, rfl⟩
  | cons q rest ih =>
      intro acc
      obtain ⟨tq, rq⟩ := q
      rw [collectGroups]
      have hcol : columnE rq "time" = .ok (column rq "time") := by
        unfold columnE
        rw [if_pos (hall (tq, rq) (List.mem_cons_self _ _))]
      rw [hcol]
      simp only [Bind.bind, Except.bind]
      exact ih (fun p hp => hall p (List.mem_cons_of_mem _ hp)) _

theorem positionPool_ok (cels : List (String × CelRec))
    (hall : ∀ p ∈ cels, "time" ∈ p.2.fields) :
    ∃ ps, positionPool cels = .ok ps := by
  induction cels with
  | nil => exact ⟨[], rfl⟩
  | cons q rest ih =>
      obtain ⟨tq, rq⟩ := q
      rw [positionPool]
      have hone : poolOne rq = .ok (if hasPosition rq then rq.rows.filterMap (rowTriple rq)
          else []) := by
        unfold poolOne
        by_cases hp : hasPosition rq = true
        · rw [if_pos hp, if_pos (hall (tq, rq) (List.mem_cons_self _ _)), if_pos hp]
        · rw [Bool.not_eq_true] at hp
          rw [hp]
          simp
      rw [hone]
      obtain ⟨qs, hqs⟩ := ih (fun p hp => hall p (List.mem_cons_of_mem _ hp))
      rw [hqs]
      exact ⟨_, rfl⟩

/-- C4 amended. Failure isolation: a classified parser failure on one file
is caught at the assembler boundary and that file is excluded, leaving the
collected list of the other files unchanged; the unit and position merges
complete whenever every successfully parsed record's field list contains a
"time" column. (An error arising after parsing — a parsed record whose
field list lacks "time" — is not caught and aborts the unit merge, as the
counterexample shows.) -/
theorem failure_isolation_amended (pre post : List (String × Except CelErr CelRec))
    (tt : String) (e : CelErr) (cels : List (String × CelRec)) :
    (collectCels (pre ++ (tt, .error e) :: post) = collectCels (pre ++ post)) ∧
    ((∀ p ∈ cels, "time" ∈ p.2.fields) →
      (∃ us, buildUnits cels = .ok us) ∧ (∃ tr, positionTrace cels = .ok tr)) := by
  constructor
  · unfold collectCels
    rw [List.filterMap_append, List.filterMap_append, List.filterMap_cons]
  · intro hall
    constructor
    · obtain ⟨gs, hgs⟩ := collectGroups_ok cels hall []
      exact ⟨_, buildUnits_eq cels gs hgs⟩
    · obtain ⟨ps, hps⟩ := positionPool_ok cels hall
      unfold positionTrace
      rw [hps]
      exact ⟨_, rfl⟩

/-- Witness for C4 amended at concrete inputs. -/
theorem failure_isolation_amended_witness :
    (collectCels ([] ++ ("TT1", Except.error CelErr.missingFields) :: []) =
      collectCels ([] ++ [])) ∧
    ((∃ us, buildUnits [("TT0", celA)] = .ok us) ∧
      (∃ tr, positionTrace [("TT0", celA)] = .ok tr)) :=
  ⟨(failure_isolation_amended [] [] "TT1" CelErr.missingFields [("TT0", celA)]).1,
   (failure_isolation_amended [] [] "TT1" CelErr.missingFields [("TT0", celA)]).2
     (by decide)⟩

end Knierim
